import Mathlib

/-!
Verification development for the firmware-version reconciliation logic of
the LinkbotJS repository (src/jsx/firmware.jsx).

JavaScript strings are embedded as `List Char`; JavaScript object key/value
maps are embedded as insertion-ordered association lists (which matches the
`for..in` enumeration order of the non-numeric keys occurring here); thrown
JavaScript exceptions are embedded as `Except JsErr`.
-/

/-- Convert a Lean string literal to the `List Char` embedding of a
JavaScript string. -/
def toL (s : String) : List Char := s.toList

/-- Thrown JavaScript exceptions that the embedded code can raise. -/
inductive JsErr where
  | typeError
  deriving DecidableEq, Repr

/-- Result of `splitFilename`: the stem, and the extension (dot included)
or `none` for the JavaScript `null`. -/
structure SplitName where
  stem : List Char
  extension : Option (List Char)
  deriving DecidableEq, Repr

/-- Index of the last occurrence of `c` in the list, from the front. -/
def lastIndexOfAux (c : Char) : List Char → Option Nat
  | [] => none
  | x :: xs =>
    match lastIndexOfAux c xs with
    | some i => some (i + 1)
    | none => if x = c then some 0 else none

/-- Embeds `String.prototype.lastIndexOf` for a single character: the index
of the last occurrence, or `-1` when absent. -/
def lastIndexOf (a : List Char) (c : Char) : Int :=
  match lastIndexOfAux c a with
  | some i => (i : Int)
  | none => -1

/-- Embeds `splitFilename` (firmware.jsx lines 14-19): split at the last
dot when its index is positive, keeping the dot in the extension;
otherwise the whole name is the stem and the extension is `null`. -/
def splitFilename (a : List Char) : SplitName :=
  let i := lastIndexOf a '.'
  if 0 < i then ⟨a.take i.toNat, some (a.drop i.toNat)⟩
  else ⟨a, none⟩

/-- Key lookup in the association-list embedding of a JavaScript object. -/
def getKey (m : List (List Char × Nat)) (k : List Char) : Option Nat :=
  (m.find? (fun p => p.1 = k)).map (fun p => p.2)

/-- Membership test for the `in` operator on the object embedding. -/
def containsKey (m : List (List Char × Nat)) (k : List Char) : Bool :=
  (m.find? (fun p => p.1 = k)).isSome

/-- Assignment `m[k] = v` on the object embedding: update the existing key
in place, or append a fresh key (JavaScript insertion order). -/
def setKey (m : List (List Char × Nat)) (k : List Char) (v : Nat) :
    List (List Char × Nat) :=
  if containsKey m k then
    m.map (fun p => if p.1 = k then (p.1, v) else p)
  else m ++ [(k, v)]

/-- String form of a JavaScript boolean, as produced when a boolean is used
as a property key by the `in` operator. -/
def boolKey (b : Bool) : List Char :=
  if b then toL "true" else toL "false"

/-- One iteration of the `forEach` body of `firmwareFileStems` (firmware.jsx
lines 31-37). The source reads `if (!file.stem in fws)`, which by JavaScript
precedence is `(!file.stem) in fws`: the boolean `!file.stem` is coerced to
the key `"false"` (or `"true"` for an empty stem), and when that key is
present the current stem is reset to `0` before the two `|=` updates. -/
def stemStep (fws : List (List Char × Nat)) (file : SplitName) :
    List (List Char × Nat) :=
  let fws1 :=
    if containsKey fws (boolKey (!(!file.stem.isEmpty))) then
      setKey fws file.stem 0
    else fws
  let fws2 :=
    setKey fws1 file.stem
      ((getKey fws1 file.stem).getD 0 |||
        (if file.extension = some (toL ".hex") then 1 else 0))
  setKey fws2 file.stem
    ((getKey fws2 file.stem).getD 0 |||
      ((if file.extension = some (toL ".eeprom") then 1 else 0) <<< 1))

/-- Embeds `firmwareFileStems` (firmware.jsx lines 25-53): tally `.hex` and
`.eeprom` files per stem in a bitset map, then keep the stems whose bitset
equals `3`. -/
def firmwareFileStems (firmwareFiles : List (List Char)) :
    List (List Char) :=
  let fws := (firmwareFiles.map splitFilename).foldl stemStep []
  fws.filterMap (fun p => if p.2 = 3 then some p.1 else none)

/-- Semantic version record. Modelled from the spec: version.jsx is not
under src/; the spec describes a Version as `{major, minor, patch}` with
equality, max-of-two and parse-from-string. -/
structure Version where
  major : Nat
  minor : Nat
  patch : Nat
  deriving DecidableEq, Repr

/-- Lexicographic (major, minor, patch) order on versions. Modelled from
the spec: versions are totally ordered by major, then minor, then patch. -/
def Version.le (a b : Version) : Prop :=
  a.major < b.major ∨
    (a.major = b.major ∧
      (a.minor < b.minor ∨ (a.minor = b.minor ∧ a.patch ≤ b.patch)))

instance : DecidablePred (fun p : Version × Version => Version.le p.1 p.2) :=
  fun _ => by unfold Version.le; infer_instance

instance (a b : Version) : Decidable (Version.le a b) := by
  unfold Version.le; infer_instance

/-- Max-of-two on versions. Modelled from the spec: version.jsx is not
under src/; the spec says Version supports max-of-two under the total
order. -/
def Version.max (a b : Version) : Version :=
  if Version.le a b then b else a

/-- Parse a digit-only nonempty string as a non-negative integer. -/
def parseNat (s : List Char) : Option Nat :=
  if s ≠ [] ∧ s.all Char.isDigit then
    some (s.foldl (fun n c => n * 10 + (c.toNat - 48)) 0)
  else none

/-- Split a string on dots, JavaScript `split` style: the empty string
yields one empty component, and separators at the ends yield empty
components. -/
def splitOnDot : List Char → List (List Char)
  | [] => [[]]
  | c :: rest =>
    let r := splitOnDot rest
    if c = '.' then [] :: r
    else
      match r with
      | x :: xs => (c :: x) :: xs
      | [] => [[c]]

/-- Parse `major.minor.patch`: exactly three dot-separated non-negative
integers. -/
def parseDotted (s : List Char) : Option Version :=
  match splitOnDot s with
  | [a, b, c] => do
    let x ← parseNat a
    let y ← parseNat b
    let z ← parseNat c
    pure ⟨x, y, z⟩
  | _ => none

/-- Embeds `Version.fromString`. Modelled from the spec: version.jsx is not
under src/; the spec says parse-from-string accepts the form
`v<major>.<minor>.<patch>` or the same without the leading `v`, and parse
failure (including a `null` argument) yields no version rather than an
error. -/
def Version.fromString (s : Option (List Char)) : Option Version :=
  match s with
  | none => none
  | some str =>
    parseDotted (match str with | 'v' :: rest => rest | other => other)

/-- Embeds `dropV` (firmware.jsx lines 58-60): strings matching `/^v/`
(lowercase only) lose the prefix, others become `null`. -/
def dropV (s : List Char) : Option (List Char) :=
  match s with
  | [] => none
  | c :: rest => if c = 'v' then some rest else none

/-- Embeds `localVersionList` (firmware.jsx lines 56-64): complete stems,
through `dropV`, through `Version.fromString`, with the `null` entries
removed by `.filter(Boolean)`. -/
def localVersionList (files : List (List Char)) : List Version :=
  (((firmwareFileStems files).map dropV).map Version.fromString).filterMap id

/-- Embeds `localVersionExists` (firmware.jsx lines 67-69) applied to the
possibly-`null` result of a parse: some stocked version equals the given
one. Version equality is modelled from the spec (version.jsx is not under
src/): field equality of two versions, so no version equals `null`. -/
def localVersionExists (files : List (List Char)) (v : Option Version) :
    Bool :=
  match v with
  | none => false
  | some w => (localVersionList files).any (fun x => x = w)

/-- Embeds `Array.prototype.reduce` with a binary callback and no initial
value, as called at firmware.jsx line 72: it throws a `TypeError` on an
empty array and folds from the first element otherwise. The persisted
`latestRemoteFirmwareVersion` string consumed by `latestVersion` below is
a parameter, since config.jsx is not under src/; its `get` is modelled
from the spec as returning the stored string or `undefined`. -/
def jsReduce (f : Version → Version → Version) :
    List Version → Except JsErr Version
  | [] => Except.error JsErr.typeError
  | x :: xs => Except.ok (xs.foldl f x)

/-- Embeds `latestVersion` (firmware.jsx lines 71-80): reduce the local
list by `Version.max`, then let the parsed persisted remote version
override the result when it is stocked locally. -/
def latestVersion (files : List (List Char))
    (lrfvStr : Option (List Char)) : Except JsErr (Option Version) := do
  let lv ← jsReduce Version.max (localVersionList files)
  let lrfv := Version.fromString lrfvStr
  pure (if localVersionExists files lrfv then lrfv else some lv)

/-- The fixed check interval of firmware.jsx line 6, in milliseconds. -/
def CHECK_INTERVAL : Int := 60000

/-- Embeds `clamp` (firmware.jsx lines 139-141):
`Math.min(Math.max(x, a), b)`. -/
def clamp (x a b : Int) : Int := min (max x a) b

/-- Embeds the module-load scheduling code of firmware.jsx lines 144-152:
read the persisted `nextCheck` (config.jsx is not under src/; its `get` is
modelled from the spec as the stored value or `undefined`), substitute the
current time when it is `undefined`, and clamp the difference to
`[0, CHECK_INTERVAL]`. -/
def initialDelay (nextCheck : Option Int) (now : Int) : Int :=
  let nc := match nextCheck with | none => now | some t => t
  clamp (nc - now) 0 CHECK_INTERVAL

/-- Observable actions of `scheduleFirmwareUpdateCheck`, in program
order. -/
inductive SchedEvent where
  | logSchedule (delay : Int)
  | configSet (key : List Char) (value : Int)
  | warn
  | armTimer (delay : Int)
  deriving DecidableEq, Repr

/-- Embeds `scheduleFirmwareUpdateCheck` (firmware.jsx lines 122-128) as
its trace of observable actions: log, call `config.set('nextCheck',
Date.now() + delay)` (its boolean result is the parameter `setOk`, since
config.jsx is not under src/), warn when that call returned false, and arm
the single-shot timer. -/
def scheduleFirmwareUpdateCheck (now delay : Int) (setOk : Bool) :
    List SchedEvent :=
  [SchedEvent.logSchedule delay,
   SchedEvent.configSet (toL "nextCheck") (now + delay)] ++
  (if setOk then [] else [SchedEvent.warn]) ++
  [SchedEvent.armTimer delay]

/-- JSON values as produced by `JSON.parse`. -/
inductive JsVal where
  | null
  | num (n : Int)
  | str (s : List Char)
  | arr (elems : List JsVal)
  | obj (fields : List (List Char × JsVal))

mutual

/-- JavaScript string conversion of a value, as used when a non-string
value is interpolated or used as a property key; arrays join their
converted elements with commas (the join special case mapping a null
element to the empty string is not modelled; no such key occurs in the
metadata document). -/
def jsToString : JsVal → List Char
  | JsVal.null => toL "null"
  | JsVal.num n => toL (toString n)
  | JsVal.str s => s
  | JsVal.obj _ => toL "[object Object]"
  | JsVal.arr elems => jsToStringList elems

/-- Comma join of the converted elements of an array. -/
def jsToStringList : List JsVal → List Char
  | [] => []
  | [x] => jsToString x
  | x :: y :: xs => jsToString x ++ ',' :: jsToStringList (y :: xs)

end

/-- Property key produced from a possibly-`undefined` value (`none` is the
JavaScript `undefined`). -/
def jsToKey : Option JsVal → List Char
  | none => toL "undefined"
  | some v => jsToString v

/-- Property access `v[k]` on a JSON value: access on `null` throws a
`TypeError`; object fields are looked up by key; numeric keys index arrays
and strings; anything else is `undefined` (`none`). -/
def jsProp (v : JsVal) (k : List Char) : Except JsErr (Option JsVal) :=
  match v with
  | JsVal.null => Except.error JsErr.typeError
  | JsVal.obj fields =>
    Except.ok ((fields.find? (fun p => p.1 = k)).map (fun p => p.2))
  | JsVal.arr elems =>
    Except.ok (match parseNat k with
      | some i => elems.get? i
      | none => none)
  | JsVal.str s =>
    Except.ok (match parseNat k with
      | some i => (s.get? i).map (fun c => JsVal.str [c])
      | none => none)
  | JsVal.num _ => Except.ok none

/-- Property access on a possibly-`undefined` value: accessing a property
of `undefined` throws a `TypeError`. -/
def jsPropU (v : Option JsVal) (k : List Char) :
    Except JsErr (Option JsVal) :=
  match v with
  | none => Except.error JsErr.typeError
  | some w => jsProp w k

/-- The running-version key `major + '.' + minor + '.' + patch` built at
firmware.jsx line 93. -/
def verKey (v : Version) : List Char :=
  toL (toString v.major) ++ toL "." ++ toL (toString v.minor) ++
    toL "." ++ toL (toString v.patch)

/-- Version construction from the split parts of a dotted string, as in
`new Version(firmwareArray[0].split('.'))` at firmware.jsx line 100.
Modelled from the spec: version.jsx is not under src/; the spec describes
a Version as three non-negative integer fields, so each part is read as a
number (zero when missing or malformed). -/
def Version.ofParts (parts : List (List Char)) : Version :=
  ⟨((parts.get? 0).bind parseNat).getD 0,
   ((parts.get? 1).bind parseNat).getD 0,
   ((parts.get? 2).bind parseNat).getD 0⟩

/-- Observable effects of one run of the response handler. -/
structure RHEffects where
  lrfvSet : Option (Option JsVal)
  warned : Bool
  saved : List (List Char × Option JsVal)
  scheduled : Option Int

/-- Embeds `responseHandler` (firmware.jsx lines 89-114). Inputs stand for
the boundary: `parse` is the outcome of `JSON.parse(this.responseText)`,
`version` the bridge `linkbotLabsVersion()` result, `files` the bridge
firmware file listing, `setOk` the boolean returned by `config.set`, and
`host` the `location.host` string. A thrown exception (`Except.error`)
propagates out of the load listener, so no check is re-armed on that path;
effects already performed before a throw are not recorded. When `version`
is `undefined` the guarded block is skipped entirely and nothing is
scheduled. -/
def responseHandler (parse : Except JsErr JsVal) (version : Option Version)
    (files : List (List Char)) (setOk : Bool) (host : List Char) :
    Except JsErr RHEffects := do
  let json ← parse
  match version with
  | none => pure ⟨none, false, [], none⟩
  | some ver => do
    let fwMap ← jsProp json (toL "linkbotlabs-firmware")
    let firmwareArray ← jsPropU fwMap (verKey ver)
    let fw0 ← jsPropU firmwareArray (toL "0")
    let md5map ← jsProp json (toL "firmware-md5sums")
    let entry ← jsPropU md5map (jsToKey fw0)
    let hexMd5 ← jsPropU entry (toL "hex")
    let md5map2 ← jsProp json (toL "firmware-md5sums")
    let entry2 ← jsPropU md5map2 (jsToKey fw0)
    let eepromMd5 ← jsPropU entry2 (toL "eeprom")
    let parts ←
      match fw0 with
      | some (JsVal.str s) => pure (splitOnDot s)
      | _ => Except.error JsErr.typeError
    let v := Version.ofParts parts
    let saved :=
      if localVersionExists files (some v) then []
      else
        [(toL "http://" ++ host ++ toL "/firmware/v" ++ jsToKey fw0 ++
            toL ".hex", hexMd5),
         (toL "http://" ++ host ++ toL "/firmware/v" ++ jsToKey fw0 ++
            toL ".eeprom", eepromMd5)]
    pure ⟨some fw0, !setOk, saved, some CHECK_INTERVAL⟩

/-- Embeds `errorResponseHandler` (firmware.jsx lines 116-120): warn and
re-arm the check after 10000 ms. -/
def errorResponseHandler : RHEffects :=
  ⟨none, true, [], some 10000⟩

/-- Local version enumeration as one claim words it, for comparison with
the embedded `localVersionList`: strip an optional leading `v` OR `V` from
each complete stem, reject stems with neither prefix, and keep exactly the
remainders that parse as three dot-separated non-negative integers. -/
def localVersionListVorV (files : List (List Char)) : List Version :=
  (firmwareFileStems files).filterMap (fun stem =>
    match stem with
    | [] => none
    | c :: rest =>
      if c = 'v' ∨ c = 'V' then parseDotted rest else none)

/-- A well-formed metadata document, used to evaluate the success path of
the response handler on a concrete input. -/
def sampleMetadata : JsVal :=
  JsVal.obj
    [(toL "linkbotlabs-firmware",
        JsVal.obj [(toL "4.4.6", JsVal.arr [JsVal.str (toL "4.4.7")])]),
     (toL "firmware-md5sums",
        JsVal.obj [(toL "4.4.7",
          JsVal.obj [(toL "hex", JsVal.str (toL "aa")),
                     (toL "eeprom", JsVal.str (toL "bb"))])])]

theorem Version.le_rfl (a : Version) : Version.le a a := by
  unfold Version.le; omega

theorem Version.le_total_lex (a b : Version) :
    Version.le a b ∨ Version.le b a := by
  unfold Version.le; omega

theorem Version.le_trans_lex {a b c : Version} (h1 : Version.le a b)
    (h2 : Version.le b c) : Version.le a c := by
  unfold Version.le at h1 h2 ⊢; omega

theorem Version.max_choice (a b : Version) :
    Version.max a b = a ∨ Version.max a b = b := by
  unfold Version.max; split
  · exact Or.inr rfl
  · exact Or.inl rfl

theorem Version.le_max_left_lex (a b : Version) :
    Version.le a (Version.max a b) := by
  unfold Version.max; split
  · assumption
  · exact Version.le_rfl a

theorem Version.le_max_right_lex (a b : Version) :
    Version.le b (Version.max a b) := by
  unfold Version.max; split
  · exact Version.le_rfl b
  · rcases Version.le_total_lex a b with h | h
    · exact absurd h (by assumption)
    · exact h

theorem foldl_max_mem (l : List Version) (a : Version) :
    l.foldl Version.max a = a ∨ l.foldl Version.max a ∈ l := by
  induction l generalizing a with
  | nil => exact Or.inl rfl
  | cons x xs ih =>
    rcases ih (Version.max a x) with h | h
    · rcases Version.max_choice a x with hc | hc
      · rw [List.foldl_cons, h, hc]; exact Or.inl rfl
      · rw [List.foldl_cons, h, hc]; exact Or.inr (List.mem_cons_self x xs)
    · exact Or.inr (List.mem_cons_of_mem x h)

theorem foldl_max_ge_self (l : List Version) (a : Version) :
    Version.le a (l.foldl Version.max a) := by
  induction l generalizing a with
  | nil => exact Version.le_rfl a
  | cons x xs ih =>
    rw [List.foldl_cons]
    exact Version.le_trans_lex (Version.le_max_left_lex a x)
      (ih (Version.max a x))

theorem foldl_max_ge (l : List Version) (a : Version) (y : Version)
    (hy : y = a ∨ y ∈ l) : Version.le y (l.foldl Version.max a) := by
  induction l generalizing a with
  | nil =>
    rcases hy with h | h
    · rw [h]; exact Version.le_rfl a
    · exact absurd h (List.not_mem_nil y)
  | cons x xs ih =>
    rw [List.foldl_cons]
    rcases hy with h | h
    · rw [h]
      exact Version.le_trans_lex (Version.le_max_left_lex a x)
        (foldl_max_ge_self xs (Version.max a x))
    · rcases List.mem_cons.mp h with h | h
      · rw [h]
        exact Version.le_trans_lex (Version.le_max_right_lex a x)
          (foldl_max_ge_self xs (Version.max a x))
      · exact ih (Version.max a x) (Or.inr h)

theorem localVersionExists_iff (files : List (List Char)) (v : Version) :
    localVersionExists files (some v) = true ↔
      v ∈ localVersionList files := by
  simp [localVersionExists, List.any_eq_true]

theorem lastIndexOfAux_of_not_mem {c : Char} {l : List Char}
    (h : c ∉ l) : lastIndexOfAux c l = none := by
  induction l with
  | nil => rfl
  | cons x xs ih =>
    have hx : ¬x = c := fun he => h (he ▸ List.mem_cons_self x xs)
    have hxs : c ∉ xs := fun hm => h (List.mem_cons_of_mem x hm)
    simp [lastIndexOfAux, ih hxs, hx]

/-- C5: for every list of filenames, `firmwareFileStems` returns exactly
the stems with both a `.hex` and a `.eeprom` file. The documented example
holds, but the precedence slip `(!file.stem) in fws` makes the code reset
a bitset whenever the key `"false"` is already present, so the stem
`"false"` (and any stem processed after a file with that stem) is lost:
the code contradicts its own doc comment on the second input. -/
theorem spec_C5 :
    firmwareFileStems
      [toL "a", toL "b.hex", toL "c.eeprom", toL "d.hex", toL "d.eeprom"] =
      [toL "d"] ∧
    firmwareFileStems [toL "false.hex", toL "false.eeprom"] = [] :=
  ⟨by decide, by decide⟩

/-- C7: `splitFilename` splits at the last dot, keeps the dot in the
extension, and treats a filename whose only dot is at position 0 as having
no extension, the stem being the whole filename. -/
theorem spec_C7 :
    splitFilename (toL "a.b.c") = ⟨toL "a.b", some (toL ".c")⟩ ∧
    splitFilename (toL "a.") = ⟨toL "a", some (toL ".")⟩ ∧
    splitFilename (toL "a") = ⟨toL "a", none⟩ ∧
    (∀ rest : List Char, '.' ∉ rest →
      splitFilename ('.' :: rest) = ⟨'.' :: rest, none⟩) := by
  refine ⟨by decide, by decide, by decide, ?_⟩
  intro rest h
  simp [splitFilename, lastIndexOf, lastIndexOfAux,
    lastIndexOfAux_of_not_mem h]

/-- Witness for C7 at the concrete filename `.gitignore`. -/
theorem spec_C7_witness :
    splitFilename ('.' :: toL "gitignore") =
      ⟨'.' :: toL "gitignore", none⟩ :=
  spec_C7.2.2.2 (toL "gitignore") (by decide)

/-- C10: concatenating the stem with the extension (empty when `null`)
restores the original filename, for every filename. -/
theorem spec_C10 (a : List Char) :
    (splitFilename a).stem ++ ((splitFilename a).extension.getD []) = a := by
  by_cases h : 0 < lastIndexOf a '.'
  · simp only [splitFilename, if_pos h]
    exact List.take_append_drop _ a
  · simp only [splitFilename, if_neg h]
    simp

/-- C6: the initial delay is `clamp(nextCheck - now, 0, 60000)` with a
missing `nextCheck` treated as `now`; a past `nextCheck` gives 0, never a
negative delay, and a `nextCheck` more than 60000 ms ahead gives exactly
60000. -/
theorem spec_C6 :
    (∀ nc now : Int, initialDelay (some nc) now = clamp (nc - now) 0 60000) ∧
    (∀ now : Int, initialDelay none now = 0) ∧
    (∀ nc now : Int, nc ≤ now → initialDelay (some nc) now = 0) ∧
    (∀ nc now : Int, now + 60000 < nc → initialDelay (some nc) now = 60000) ∧
    (∀ (o : Option Int) (now : Int), 0 ≤ initialDelay o now) := by
  refine ⟨fun nc now => rfl, fun now => ?_, fun nc now h => ?_,
    fun nc now h => ?_, fun o now => ?_⟩
  · simp [initialDelay, clamp, CHECK_INTERVAL]
  · simp only [initialDelay, clamp, CHECK_INTERVAL]; omega
  · simp only [initialDelay, clamp, CHECK_INTERVAL]; omega
  · rcases o with _ | nc <;>
      simp only [initialDelay, clamp, CHECK_INTERVAL] <;> omega

/-- Witness for C6: a persisted check time 5000 ms in the past clamps to
an immediate check, and one 10 minutes ahead clamps to the 60000 ms
ceiling. -/
theorem spec_C6_witness :
    initialDelay (some 0) 5000 = 0 ∧ initialDelay (some 600000) 0 = 60000 :=
  ⟨spec_C6.2.2.1 0 5000 (by decide), spec_C6.2.2.2.1 600000 0 (by decide)⟩

/-- C8: `scheduleFirmwareUpdateCheck` emits the `nextCheck = now + delay`
config write strictly before arming the timer, and the timer is armed
whether or not the config write succeeded; a failed write additionally
emits only a warning. -/
theorem spec_C8 (now delay : Int) :
    (∃ pre post, scheduleFirmwareUpdateCheck now delay true =
        pre ++ SchedEvent.armTimer delay :: post ∧
      SchedEvent.configSet (toL "nextCheck") (now + delay) ∈ pre) ∧
    (∃ pre post, scheduleFirmwareUpdateCheck now delay false =
        pre ++ SchedEvent.armTimer delay :: post ∧
      SchedEvent.configSet (toL "nextCheck") (now + delay) ∈ pre ∧
      SchedEvent.warn ∈ pre) := by
  constructor
  · exact ⟨[SchedEvent.logSchedule delay,
      SchedEvent.configSet (toL "nextCheck") (now + delay)], [], rfl,
      by simp⟩
  · exact ⟨[SchedEvent.logSchedule delay,
      SchedEvent.configSet (toL "nextCheck") (now + delay),
      SchedEvent.warn], [], rfl, by simp, by simp⟩

/-- Counterexample to C3 as stated: with no local firmware files at all,
`latestVersion()` does not return `undefined`; the no-seed `reduce` on the
empty array throws a `TypeError`. -/
theorem spec_C3_cex : latestVersion [] none = Except.error JsErr.typeError :=
  rfl

/-- C3 amended: when the set of locally available firmware versions is
empty, `latestVersion()` throws a `TypeError` (from `reduce` on an empty
array with no initial value) instead of returning `undefined`. -/
theorem spec_C3 (files : List (List Char)) (lrfvStr : Option (List Char))
    (h : localVersionList files = []) :
    latestVersion files lrfvStr = Except.error JsErr.typeError := by
  unfold latestVersion
  rw [h]
  rfl

/-- Witness for C3 at a file list whose only file has no `.eeprom` mate. -/
theorem spec_C3_witness :
    latestVersion [toL "a.hex"] none = Except.error JsErr.typeError :=
  spec_C3 [toL "a.hex"] none rfl

theorem filterMap_chain (l : List (List Char)) :
    ((l.map dropV).map Version.fromString).filterMap id =
      l.filterMap (fun s => Version.fromString (dropV s)) := by
  induction l with
  | nil => rfl
  | cons s t ih =>
    simp only [List.map_cons, List.filterMap_cons]
    cases hfs : Version.fromString (dropV s) <;>
      simp [hfs, ih, Function.comp] <;>
      simp [← ih, List.filterMap_map, Function.comp]

/-- Counterexample to C4 as stated: an uppercase `V` prefix is not
stripped. On the files `V1.0.0.hex` / `V1.0.0.eeprom` the claim-as-worded
enumeration yields version 1.0.0 while the code yields nothing, because
`dropV` tests the case-sensitive `/^v/`. -/
theorem spec_C4_cex :
    localVersionList [toL "V1.0.0.hex", toL "V1.0.0.eeprom"] = [] ∧
    localVersionListVorV [toL "V1.0.0.hex", toL "V1.0.0.eeprom"] =
      [⟨1, 0, 0⟩] :=
  ⟨by decide, by decide⟩

/-- C4 amended: only a lowercase `v` prefix is stripped from a complete
stem; a stem with any other first character, including an uppercase `V`,
is rejected; the remainder contributes a version exactly when
`Version.fromString` parses it (three dot-separated non-negative
integers), and malformed strings are dropped silently. -/
theorem spec_C4 (files : List (List Char)) :
    localVersionList files =
      (firmwareFileStems files).filterMap (fun stem =>
        match stem with
        | [] => none
        | c :: rest =>
          if c = 'v' then Version.fromString (some rest) else none) := by
  unfold localVersionList
  rw [filterMap_chain]
  congr 1
  funext s
  cases s with
  | nil => rfl
  | cons c rest =>
    by_cases hc : c = 'v' <;> simp [dropV, hc, Version.fromString]

/-- C1: `latestVersion` returns the persisted remote version whenever it
parses and a complete local pair for exactly that version exists; when the
parsed remote version is not stocked locally (including when it does not
parse), it returns the maximum of the nonempty local version set under
the lexicographic (major, minor, patch) order. -/
theorem spec_C1 (files : List (List Char)) (lrfvStr : Option (List Char)) :
    (∀ v : Version, Version.fromString lrfvStr = some v →
      v ∈ localVersionList files →
      latestVersion files lrfvStr = Except.ok (some v)) ∧
    (localVersionExists files (Version.fromString lrfvStr) = false →
      ∀ x xs, localVersionList files = x :: xs →
        ∃ m, latestVersion files lrfvStr = Except.ok (some m) ∧
          m ∈ localVersionList files ∧
          ∀ y ∈ localVersionList files, Version.le y m) := by
  constructor
  · intro v hv hmem
    have hex : localVersionExists files (some v) = true :=
      (localVersionExists_iff files v).mpr hmem
    rcases hl : localVersionList files with _ | ⟨x, xs⟩
    · rw [hl] at hmem; exact absurd hmem (List.not_mem_nil v)
    · unfold latestVersion
      rw [hl]
      simp [jsReduce, hv, hex]
  · intro hnex x xs hl
    refine ⟨xs.foldl Version.max x, ?_, ?_, ?_⟩
    · unfold latestVersion
      rw [hl]
      simp [jsReduce, hnex]
    · rw [hl]
      rcases foldl_max_mem xs x with h | h
      · rw [h]; exact List.mem_cons_self x xs
      · exact List.mem_cons_of_mem x h
    · intro y hy
      rw [hl] at hy
      exact foldl_max_ge xs x y
        (by rcases List.mem_cons.mp hy with h | h
            exacts [Or.inl h, Or.inr h])

/-- Witness for C1: with complete pairs only for 1.0.0 (2.0.0 lacks its
eeprom file) and persisted remote `1.0.0`, the remote version is stocked
and wins. -/
theorem spec_C1_witness :
    latestVersion [toL "v1.0.0.hex", toL "v1.0.0.eeprom", toL "v2.0.0.hex"]
      (some (toL "1.0.0")) = Except.ok (some ⟨1, 0, 0⟩) :=
  (spec_C1 [toL "v1.0.0.hex", toL "v1.0.0.eeprom", toL "v2.0.0.hex"]
    (some (toL "1.0.0"))).1 ⟨1, 0, 0⟩ (by decide) (by decide)

/-- C9: the modelled `Version.max` returns one of its two arguments, and
whenever `latestVersion` returns a version at all, that version is a
member of the local version set, i.e. a complete `.hex`/`.eeprom` pair for
it exists locally. -/
theorem spec_C9 :
    (∀ a b : Version, Version.max a b = a ∨ Version.max a b = b) ∧
    (∀ (files : List (List Char)) (lrfvStr : Option (List Char))
        (v : Version),
      latestVersion files lrfvStr = Except.ok (some v) →
      v ∈ localVersionList files) := by
  constructor
  · exact Version.max_choice
  · intro files lrfvStr v h
    rcases hl : localVersionList files with _ | ⟨x, xs⟩
    · unfold latestVersion at h
      rw [hl] at h
      simp [jsReduce] at h
    · have he : latestVersion files lrfvStr =
          Except.ok (if localVersionExists files (Version.fromString lrfvStr)
            then Version.fromString lrfvStr
            else some (xs.foldl Version.max x)) := by
        unfold latestVersion
        rw [hl]
        rfl
      rw [he] at h
      cases hex : localVersionExists files (Version.fromString lrfvStr) with
      | false =>
        simp only [hex, Bool.false_eq_true, if_false, Except.ok.injEq,
          Option.some.injEq] at h
        rw [← h]
        rcases foldl_max_mem xs x with hm | hm
        · rw [hm]; exact List.mem_cons_self x xs
        · exact List.mem_cons_of_mem x hm
      | true =>
        simp only [hex, if_true, Except.ok.injEq] at h
        rw [h] at hex
        exact hl ▸ (localVersionExists_iff files v).mp hex

/-- Witness for C9: on a stocked 4.4.6 pair the resolved version is
locally available. -/
theorem spec_C9_witness :
    (⟨4, 4, 6⟩ : Version) ∈
      localVersionList [toL "v4.4.6.eeprom", toL "v4.4.6.hex"] :=
  spec_C9.2 [toL "v4.4.6.eeprom", toL "v4.4.6.hex"] none ⟨4, 4, 6⟩ rfl

/-- C2 under the code as written: when the load handler runs with a body
that parses (here the JSON `{}` is embedded as the empty object) but the
bridge reports no running application version, the handler performs no
action at all — in particular no next check is scheduled, so the claimed
10000 ms re-arm does not happen and the check loop halts. The network
error handler does re-arm at 10000 ms, and a fully successful response
re-arms at 60000 ms and requests both missing firmware files. -/
theorem spec_C2 :
    responseHandler (Except.ok (JsVal.obj [])) none [] true [] =
      Except.ok ⟨none, false, [], none⟩ ∧
    errorResponseHandler.scheduled = some 10000 ∧
    responseHandler (Except.ok sampleMetadata) (some ⟨4, 4, 6⟩) [] true
        (toL "h") =
      Except.ok ⟨some (some (JsVal.str (toL "4.4.7"))), false,
        [(toL "http://h/firmware/v4.4.7.hex", some (JsVal.str (toL "aa"))),
         (toL "http://h/firmware/v4.4.7.eeprom",
           some (JsVal.str (toL "bb")))],
        some 60000⟩ :=
  ⟨rfl, rfl, rfl⟩
